import Mathlib

/-!
# Verification of the LDLC smartphone price tracker (`scrape.py`)

Shallow embedding of the decision logic of `scrape.py`:

* the price resolver `extract_main_price_from_text` (with its regex scan
  `(\d[\d\s]*)\s*€\s*(\d{2})?`, the plausibility band and the promotional
  second-candidate rule),
* the per-item fallback-budget loop of `scrape_listing_page`,
* the Excel history merge `update_excel_history` (pandas index union,
  `combine_first` metadata reconciliation, timestamp column append, final
  `sort_values` ordering),
* the empty-run circuit breaker of `run_once` over `state.json`.

Monetary amounts are modelled in euro cents (`Nat`): the Python value
`euros + cents/100.0` is represented as `100 * euros + cents`, which is
order-isomorphic to the float value on the range the scanner produces, and
makes the `50 <= v <= 10000` band test exact (`5000 <= v <= 1000000` cents).
Ledger price cells are modelled as `Option ℚ` (a missing cell is `none`).
-/

namespace Scrape

/-! ## Character classes

`isSpc` models the whitespace class `\s` of the Python regexes over the
characters that occur in the scraped text (ASCII whitespace and the
non-breaking space `\xa0`); `Char.isDigit` models `\d` / `str.isdigit`. -/

def isSpc (c : Char) : Bool :=
  c == ' ' || c == '\t' || c == '\n' || c == '\r' ||
  c == '\u000b' || c == '\u000c' || c == '\u00a0'

/-- A character allowed inside the first regex group `[\d\s]`. -/
def isAmtChar (c : Char) : Bool := c.isDigit || isSpc c

/-! ## `_normalize_price_text` -/

/-- `t.replace("\xa0", " ")`. -/
def nbspToSpace (c : Char) : Char := if c == '\u00a0' then ' ' else c

/-- `re.sub(r"\s+", " ", t)`: collapse every maximal whitespace run to a
single `' '`. The flag records whether the previous character was part of a
whitespace run. -/
def collapseAux : Bool → List Char → List Char
  | _, [] => []
  | prevSpc, c :: rest =>
    if isSpc c then
      if prevSpc then collapseAux true rest
      else ' ' :: collapseAux true rest
    else c :: collapseAux false rest

/-- `.strip()`: drop leading and trailing whitespace. -/
def stripEnds (l : List Char) : List Char :=
  ((l.dropWhile isSpc).reverse.dropWhile isSpc).reverse

/-- `_normalize_price_text` of `scrape.py`. -/
def normalize_price_text (s : String) : List Char :=
  stripEnds (collapseAux false (s.data.map nbspToSpace))

/-! ## The regex scan of `extract_main_price_from_text`

`re.finditer(r"(\d[\d\s]*)\s*€\s*(\d{2})?", t)`.  A match at a position
must start with a digit; group 1 greedily takes the maximal `[\d\s]` run
(backtracking trims the trailing whitespace so that group 1 ends at the
last digit), after which the literal `€` must follow immediately (no other
split can succeed, since `€` cannot occur inside the `[\d\s]` run); then
`\s*` and, when the next two characters are digits, the two-digit cents
group. On failure the scan advances one character, as `finditer` does. -/

/-- Trailing-whitespace trim: group 1 after regex backtracking. -/
def trimTrail (l : List Char) : List Char := (l.reverse.dropWhile isSpc).reverse

/-- Numeric value of a digit string (`int`). -/
def digitsVal (l : List Char) : Nat := l.foldl (fun a c => 10 * a + (c.toNat - 48)) 0

/-- The optional two-digit cents group `(\d{2})?` together with the rest of
the text after the whole match. -/
def centsPart : List Char → Option Nat × List Char
  | d1 :: d2 :: r =>
    if d1.isDigit && d2.isDigit then (some (digitsVal [d1, d2]), r)
    else (none, d1 :: d2 :: r)
  | l => (none, l)

/-- One match attempt at the head of the text.  `none`: the regex does not
match here. `some (v?, rest)`: the regex matches, `rest` is the text after
the match, and `v?` is the scanned amount in cents (`none` when the Python
loop `continue`s because `euros_raw.isdigit()` fails). -/
def matchFrom : List Char → Option (Option Nat × List Char)
  | [] => none
  | c :: rest =>
    if c.isDigit then
      match (c :: rest).dropWhile isAmtChar with
      | '€' :: r2 =>
        let run := (c :: rest).takeWhile isAmtChar
        let euros_raw := (trimTrail run).filter (fun x => x != ' ')
        let r3 := r2.dropWhile isSpc
        let (cents?, r4) := centsPart r3
        if !euros_raw.isEmpty && euros_raw.all Char.isDigit then
          some (some (digitsVal euros_raw * 100 + cents?.getD 0), r4)
        else some (none, r4)
      | _ => none
    else none

/-- The `finditer` loop collecting the `matches` list, fuelled by the text
length (every step consumes at least one character). -/
def scanAux : Nat → List Char → List Nat
  | 0, _ => []
  | _ + 1, [] => []
  | fuel + 1, c :: rest =>
    match matchFrom (c :: rest) with
    | some (some v, r) => v :: scanAux fuel r
    | some (none, r) => scanAux fuel r
    | none => scanAux fuel rest

/-- All scanned amounts of a text, in document order (the `matches` list). -/
def scanText (l : List Char) : List Nat := scanAux (l.length + 1) l

/-! ## Selection policy of `extract_main_price_from_text` -/

/-- The plausibility band `50 <= v <= 10000` euros, in cents. -/
def inBand (v : Nat) : Bool := 5000 ≤ v && v ≤ 1000000

/-- The selection over the `matches` list: `None` when empty; the first raw
match when no candidate is in the band; the second in-band candidate when
there are at least two; otherwise the single in-band candidate. -/
def selectPrice (ms : List Nat) : Option Nat :=
  if ms = [] then none
  else
    let candidates := ms.filter inBand
    if candidates = [] then ms.head?
    else if 2 ≤ candidates.length then candidates.get? 1
    else candidates.head?

/-- `extract_main_price_from_text` of `scrape.py` (result in cents). -/
def extract_main_price_from_text (text : String) : Option Nat :=
  if text = "" then none
  else selectPrice (scanText (normalize_price_text text))

/-- The raw `matches` list a text produces. -/
def rawAmounts (text : String) : List Nat := scanText (normalize_price_text text)

/-- The candidates surviving the plausibility filter, in document order. -/
def survivors (text : String) : List Nat := (rawAmounts text).filter inBand

/-! ## Item rows and the fallback budget (`scrape_listing_page`)

A `ListingItem` is one retained product anchor of a listing page:
`listing_price` is what `extract_main_price_from_text` produced from the
listing fragment, and `detail_price` is the outcome the fallback
`get_price_from_product_page` would yield for this item (`none` models both
an unresolved detail page and a caught exception). -/

structure ListingItem where
  reference : String
  nom : String
  url_produit : String
  listing_price : Option ℚ
  detail_price : Option ℚ
deriving DecidableEq

/-- One observation row of a run (the dict appended to `rows`). -/
structure ItemRow where
  reference : String
  nom : String
  url_produit : String
  prix_eur : Option ℚ
deriving DecidableEq

/-- The per-item loop of `scrape_listing_page` threaded through the shared
`fallback_budget` dict: returns the produced rows, the remaining budget and
the number of fallback attempts.  A fallback is attempted exactly when the
listing price is missing and budget remains; it consumes one unit whether
the detail fetch succeeds or fails. -/
def scrape_items : List ListingItem → Nat → List ItemRow × Nat × Nat
  | [], budget => ([], budget, 0)
  | it :: rest, budget =>
    match it.listing_price with
    | some v =>
      let r := scrape_items rest budget
      (⟨it.reference, it.nom, it.url_produit, some v⟩ :: r.1, r.2.1, r.2.2)
    | none =>
      if 0 < budget then
        let r := scrape_items rest (budget - 1)
        (⟨it.reference, it.nom, it.url_produit, it.detail_price⟩ :: r.1, r.2.1, r.2.2 + 1)
      else
        let r := scrape_items rest budget
        (⟨it.reference, it.nom, it.url_produit, none⟩ :: r.1, r.2.1, r.2.2)

/-- The five-item demonstration batch of the spec (all listing prices
missing, every detail page resolvable). -/
def demoItems : List ListingItem :=
  [⟨"PB1", "iPhone 1", "u1", none, some 101⟩,
   ⟨"PB2", "iPhone 2", "u2", none, some 102⟩,
   ⟨"PB3", "iPhone 3", "u3", none, some 103⟩,
   ⟨"PB4", "iPhone 4", "u4", none, some 104⟩,
   ⟨"PB5", "iPhone 5", "u5", none, some 105⟩]

/-! ## The Excel history ledger (`update_excel_history`)

A `Ledger` is the `Suivi` sheet after `set_index("reference")`: an ordered
list of price columns (one per capture timestamp) and an ordered list of
rows; each row's `prices` list is aligned with `priceCols`. -/

structure LedgerRow where
  reference : String
  nom : Option String
  url_produit : Option String
  prices : List (Option ℚ)
deriving DecidableEq

structure Ledger where
  priceCols : List String
  rows : List LedgerRow
deriving DecidableEq

/-- The minimal file `ensure_excel_exists` creates: columns
`reference, nom, url_produit`, no price columns, no rows. -/
def emptyLedger : Ledger := ⟨[], []⟩

/-- Row lookup by reference (a `.loc[r]` on the indexed frame). -/
def Ledger.findRow (L : Ledger) (r : String) : Option LedgerRow :=
  L.rows.find? (fun row => row.reference == r)

/-- The all-missing row `reindex` introduces for a reference that is new to
the history. -/
def blankRow (cols : List String) (r : String) : LedgerRow :=
  ⟨r, none, none, List.replicate cols.length none⟩

/-- Value of price column `c` in a row's cells (the cells are aligned with
the column list); `none` when the column is absent or the cell is missing. -/
def colVal : List String → List (Option ℚ) → String → Option ℚ
  | c :: cols, p :: ps, x => if c == x then p else colVal cols ps x
  | _, _, _ => none

/-- `df_merged[timestamp] = ...`: writing the run's column into a row's
cells — pandas overwrites the cell in place when the column already exists
and appends the new column at the end otherwise. -/
def setCol : List String → List (Option ℚ) → Option ℚ → String → List (Option ℚ)
  | c :: cols, p :: ps, v, ts => if c == ts then v :: ps else p :: setCol cols ps v ts
  | _, ps, v, _ => ps ++ [v]

/-- The merged row for reference `r`: metadata prefer the batch's values
(`combine_first`), the run column holds the batch price for observed
references and a missing value otherwise, prior cells are kept. -/
def mergedRow (L : Ledger) (batch : List ItemRow) (ts : String) (r : String) : LedgerRow :=
  let base := (L.findRow r).getD (blankRow L.priceCols r)
  match batch.find? (fun o => o.reference == r) with
  | some o =>
    { reference := r, nom := some o.nom, url_produit := some o.url_produit,
      prices := setCol L.priceCols base.prices o.prix_eur ts }
  | none =>
    { reference := r, nom := base.nom, url_produit := base.url_produit,
      prices := setCol L.priceCols base.prices none ts }

/-- `df_hist.index.union(df_run.index)`: pandas returns the other index
when one side is empty, and otherwise the sorted union. -/
def unionIndex (self other : List String) : List String :=
  if other.isEmpty then self
  else if self.isEmpty then other
  else List.insertionSort (· ≤ ·) (self ++ other.filter (fun r => !self.contains r))

/-- Strict ascending comparison on the run column, missing values last
(`na_position="last"`). -/
def optPriceLT : Option ℚ → Option ℚ → Bool
  | some a, some b => decide (a < b)
  | some _, none => true
  | none, _ => false

/-- Non-strict comparison on the `nom` metadata, missing values last. -/
def optNomLE : Option String → Option String → Bool
  | some a, some b => decide (a ≤ b)
  | some _, none => true
  | none, some _ => false
  | none, none => true

/-- The `sort_values(by=[timestamp, "nom"], na_position="last")` order:
lexicographic in (run-column price, display name). -/
def rowLE (cols : List String) (ts : String) (a b : LedgerRow) : Prop :=
  optPriceLT (colVal cols a.prices ts) (colVal cols b.prices ts) = true ∨
    (colVal cols a.prices ts = colVal cols b.prices ts ∧ optNomLE a.nom b.nom = true)

instance (cols : List String) (ts : String) : DecidableRel (rowLE cols ts) := fun a b =>
  inferInstanceAs (Decidable
    (optPriceLT (colVal cols a.prices ts) (colVal cols b.prices ts) = true ∨
      (colVal cols a.prices ts = colVal cols b.prices ts ∧ optNomLE a.nom b.nom = true)))

/-- The pure core of `update_excel_history` on a non-empty batch: union of
references, metadata reconciliation, run-column append/overwrite, and the
final sort. -/
def mergeLedger (L : Ledger) (batch : List ItemRow) (ts : String) : Ledger :=
  let cols := if ts ∈ L.priceCols then L.priceCols else L.priceCols ++ [ts]
  let idx := unionIndex (L.rows.map (·.reference)) (batch.map (·.reference))
  ⟨cols, List.insertionSort (rowLE cols ts) (idx.map (mergedRow L batch ts))⟩

/-- `update_excel_history` as a transformer of the persisted Excel file
(`none` = file absent).  `ensure_excel_exists` first creates the minimal
empty file when missing; an empty batch returns before touching the
history; otherwise the merged ledger is written back. -/
def update_excel_history (file : Option Ledger) (rows : List ItemRow) (ts : String) :
    Option Ledger :=
  let ensured := some (file.getD emptyLedger)
  if rows.isEmpty then ensured
  else some (mergeLedger (file.getD emptyLedger) rows ts)

/-! ## `run_once`: the empty-run circuit breaker -/

def MAX_EMPTY_RUNS : Nat := 3

/-- Outcome of one run: the persisted `empty_runs` counter, the persisted
Excel file, and whether the `RuntimeError` was raised. -/
structure RunResult where
  empty_runs : Nat
  excel : Option Ledger
  raised : Bool
deriving DecidableEq

/-- `run_once` after the scraping stage: `state` is the loaded `empty_runs`
counter, `rows` the batch `scrape_all_pages` returned, `file` the persisted
Excel file, `ts` this run's timestamp.  An empty batch increments the
counter (persisted before the raise) and raises iff the incremented value
reaches `MAX_EMPTY_RUNS`; a non-empty batch resets the counter and merges
into the history. -/
def run_once (state : Nat) (rows : List ItemRow) (file : Option Ledger) (ts : String) :
    RunResult :=
  let ensured := some (file.getD emptyLedger)
  if rows.isEmpty then
    ⟨state + 1, ensured, decide (MAX_EMPTY_RUNS ≤ state + 1)⟩
  else
    ⟨0, update_excel_history file rows ts, false⟩

/-! ## Selection-stage lemmas for the price resolver -/

theorem extract_eq_select (t : String) (h : rawAmounts t ≠ []) :
    extract_main_price_from_text t = selectPrice (rawAmounts t) := by
  by_cases ht : t = ""
  · subst ht
    exact absurd (by decide : rawAmounts "" = []) h
  · simp [extract_main_price_from_text, ht, rawAmounts]

theorem filter_ne_nil_of_cons {ms l : List Nat} {c : Nat}
    (h : ms.filter inBand = c :: l) : ms ≠ [] := by
  intro he
  rw [he] at h
  simp at h

theorem selectPrice_two {ms : List Nat} {c0 c1 : Nat} {rest : List Nat}
    (h : ms.filter inBand = c0 :: c1 :: rest) : selectPrice ms = some c1 := by
  have hms : ms ≠ [] := filter_ne_nil_of_cons h
  simp only [selectPrice, if_neg hms, h]
  simp [Nat.le_add_left]

theorem selectPrice_one {ms : List Nat} {c0 : Nat}
    (h : ms.filter inBand = [c0]) : selectPrice ms = some c0 := by
  have hms : ms ≠ [] := filter_ne_nil_of_cons h
  simp [selectPrice, if_neg hms, h]

theorem selectPrice_fallback {m0 : Nat} {rest : List Nat}
    (h : (m0 :: rest).filter inBand = []) : selectPrice (m0 :: rest) = some m0 := by
  simp [selectPrice, h]

theorem selectPrice_isSome {ms : List Nat} (h : ms ≠ []) :
    selectPrice ms ≠ none := by
  obtain ⟨m0, rest, rfl⟩ : ∃ m0 rest, ms = m0 :: rest := by
    cases ms with
    | nil => exact absurd rfl h
    | cons a l => exact ⟨a, l, rfl⟩
  rcases hf : (m0 :: rest).filter inBand with _ | ⟨c0, _ | ⟨c1, crest⟩⟩
  · rw [selectPrice_fallback hf]; simp
  · rw [selectPrice_one hf]; simp
  · rw [selectPrice_two hf]; simp

theorem selectPrice_band {ms : List Nat} {v : Nat}
    (hf : ms.filter inBand ≠ []) (h : selectPrice ms = some v) : inBand v = true := by
  rcases hc : ms.filter inBand with _ | ⟨c0, _ | ⟨c1, crest⟩⟩
  · exact absurd hc hf
  · rw [selectPrice_one hc] at h
    have : c0 ∈ ms.filter inBand := by rw [hc]; exact List.mem_singleton.mpr rfl
    have hb := (List.mem_filter.mp this).2
    cases h
    exact hb
  · rw [selectPrice_two hc] at h
    have : c1 ∈ ms.filter inBand := by rw [hc]; simp
    have hb := (List.mem_filter.mp this).2
    cases h
    exact hb

/-! ## Lemmas on the fallback-budget loop -/

theorem scrape_items_attempts (items : List ListingItem) :
    ∀ B : Nat, (scrape_items items B).2.2 =
      min B (items.countP (fun it => it.listing_price.isNone)) := by
  induction items with
  | nil => intro B; simp [scrape_items]
  | cons it rest ih =>
    intro B
    cases h : it.listing_price with
    | some v => simp [scrape_items, h, ih B, List.countP_cons]
    | none =>
      by_cases hb : 0 < B
      · simp [scrape_items, h, hb, ih (B - 1), List.countP_cons]
        omega
      · simp [scrape_items, h, hb, ih B, List.countP_cons]
        omega

theorem scrape_items_budget (items : List ListingItem) :
    ∀ B : Nat, (scrape_items items B).2.1 = B - (scrape_items items B).2.2 := by
  induction items with
  | nil => intro B; simp [scrape_items]
  | cons it rest ih =>
    intro B
    cases h : it.listing_price with
    | some v => simp [scrape_items, h, ih B]
    | none =>
      by_cases hb : 0 < B
      · simp [scrape_items, h, hb, ih (B - 1)]
        omega
      · simp [scrape_items, h, hb, ih B]

theorem scrape_items_length (items : List ListingItem) :
    ∀ B : Nat, (scrape_items items B).1.length = items.length := by
  induction items with
  | nil => intro B; simp [scrape_items]
  | cons it rest ih =>
    intro B
    cases h : it.listing_price with
    | some v => simp [scrape_items, h, ih B]
    | none =>
      by_cases hb : 0 < B
      · simp [scrape_items, h, hb, ih (B - 1)]
      · simp [scrape_items, h, hb, ih B]

theorem scrape_items_price (items : List ListingItem) :
    ∀ (B i : Nat) (h : i < items.length), items[i].listing_price = none →
      ((scrape_items items B).1.map (fun r => r.prix_eur))[i]? =
        some (if (items.take i).countP (fun it => it.listing_price.isNone) < B
              then items[i].detail_price else none) := by
  induction items with
  | nil => intro B i h; exact absurd h (by simp)
  | cons it rest ih =>
    intro B i h hnone
    cases i with
    | zero =>
      simp only [List.getElem_cons_zero] at hnone
      by_cases hb : 0 < B
      · simp [scrape_items, hnone, hb]
      · simp [scrape_items, hnone, hb]
    | succ j =>
      have hj : j < rest.length := by simpa using h
      simp only [List.getElem_cons_succ] at hnone ⊢
      cases hl : it.listing_price with
      | some v =>
        have hrec := ih B j hj hnone
        simp only [scrape_items, hl]
        simpa [List.countP_cons, hl] using hrec
      | none =>
        by_cases hb : 0 < B
        · have hrec := ih (B - 1) j hj hnone
          simp only [scrape_items, hl, if_pos hb]
          simp only [List.take_succ_cons, List.countP_cons, hl]
          by_cases hc : (rest.take j).countP (fun it => it.listing_price.isNone) < B - 1
          · rw [if_pos hc] at hrec
            simpa [if_pos (by omega :
              (rest.take j).countP (fun it => it.listing_price.isNone) + 1 < B)] using hrec
          · rw [if_neg hc] at hrec
            simpa [if_neg (by omega : ¬ ((rest.take j).countP
              (fun it => it.listing_price.isNone) + 1 < B))] using hrec
        · have hrec := ih B j hj hnone
          have hb0 : B = 0 := by omega
          subst hb0
          simp only [scrape_items, hl, if_neg hb]
          simp only [List.take_succ_cons, List.countP_cons, hl]
          rw [if_neg (by omega)] at hrec
          simpa [if_neg (by omega : ¬ ((rest.take j).countP
            (fun it => it.listing_price.isNone) + 1 < 0))] using hrec

/-! ## Lemmas on the ledger merge -/

theorem setCol_not_mem :
    ∀ (cols : List String) (ps : List (Option ℚ)) (v : Option ℚ) (ts : String),
      ts ∉ cols → ps.length = cols.length → setCol cols ps v ts = ps ++ [v] := by
  intro cols
  induction cols with
  | nil =>
    intro ps v ts _ hlen
    have : ps = [] := List.length_eq_zero.mp hlen
    subst this
    rfl
  | cons c cols ih =>
    intro ps v ts hts hlen
    cases ps with
    | nil => simp at hlen
    | cons p ps =>
      have hne : ¬ c = ts := fun h => hts (h ▸ List.mem_cons_self c cols)
      have htail : setCol cols ps v ts = ps ++ [v] :=
        ih ps v ts (fun h => hts (List.mem_cons_of_mem c h)) (by simpa using hlen)
      simp [setCol, hne, htail]

theorem setCol_append_self :
    ∀ (cols : List String) (ps : List (Option ℚ)) (w v : Option ℚ) (ts : String),
      ts ∉ cols → ps.length = cols.length →
      setCol (cols ++ [ts]) (ps ++ [w]) v ts = ps ++ [v] := by
  intro cols
  induction cols with
  | nil =>
    intro ps w v ts _ hlen
    have : ps = [] := List.length_eq_zero.mp hlen
    subst this
    simp [setCol]
  | cons c cols ih =>
    intro ps w v ts hts hlen
    cases ps with
    | nil => simp at hlen
    | cons p ps =>
      have hne : ¬ c = ts := fun h => hts (h ▸ List.mem_cons_self c cols)
      have htail : setCol (cols ++ [ts]) (ps ++ [w]) v ts = ps ++ [v] :=
        ih ps w v ts (fun h => hts (List.mem_cons_of_mem c h)) (by simpa using hlen)
      simp [setCol, hne, htail]

theorem colVal_append_new :
    ∀ (cols : List String) (ps : List (Option ℚ)) (v : Option ℚ) (ts : String),
      ts ∉ cols → ps.length = cols.length →
      colVal (cols ++ [ts]) (ps ++ [v]) ts = v := by
  intro cols
  induction cols with
  | nil =>
    intro ps v ts _ hlen
    have : ps = [] := List.length_eq_zero.mp hlen
    subst this
    simp [colVal]
  | cons c cols ih =>
    intro ps v ts hts hlen
    cases ps with
    | nil => simp at hlen
    | cons p ps =>
      have hne : ¬ c = ts := fun h => hts (h ▸ List.mem_cons_self c cols)
      have htail : colVal (cols ++ [ts]) (ps ++ [v]) ts = v :=
        ih ps v ts (fun h => hts (List.mem_cons_of_mem c h)) (by simpa using hlen)
      simp [colVal, hne, htail]

theorem colVal_append_left :
    ∀ (cols : List String) (ps : List (Option ℚ)) (cols2 : List String)
      (qs : List (Option ℚ)) (c : String),
      c ∈ cols → ps.length = cols.length →
      colVal (cols ++ cols2) (ps ++ qs) c = colVal cols ps c := by
  intro cols
  induction cols with
  | nil =>
    intro ps cols2 qs c hc
    exact absurd hc (List.not_mem_nil c)
  | cons c0 cols ih =>
    intro ps cols2 qs c hc hlen
    cases ps with
    | nil => simp at hlen
    | cons p ps =>
      by_cases he : c0 = c
      · simp [colVal, he]
      · have hc' : c ∈ cols := by
          rcases List.mem_cons.mp hc with h | h
          · exact absurd h.symm he
          · exact h
        have htail : colVal (cols ++ cols2) (ps ++ qs) c = colVal cols ps c :=
          ih ps cols2 qs c hc' (by simpa using hlen)
        simp [colVal, he, htail]

theorem find?_key_eq_some {α : Type} (key : α → String) :
    ∀ {l : List α}, (l.map key).Nodup → ∀ {x : α}, x ∈ l → ∀ {r : String}, key x = r →
      l.find? (fun y => key y == r) = some x := by
  intro l
  induction l with
  | nil => intro _ x hx; exact absurd hx (List.not_mem_nil x)
  | cons a l ih =>
    intro hnd x hx r hr
    rw [List.map_cons, List.nodup_cons] at hnd
    rcases List.mem_cons.mp hx with rfl | hx'
    · simp [List.find?, hr]
    · have hne : (key a == r) = false := by
        simp only [beq_eq_false_iff_ne, ne_eq]
        intro h
        apply hnd.1
        have hm : key x ∈ List.map key l := List.mem_map_of_mem key hx'
        rwa [hr, ← h] at hm
      rw [List.find?_cons, hne]
      exact ih hnd.2 hx' hr

theorem find?_key_eq_none {α : Type} (key : α → String) {l : List α} {r : String}
    (hr : r ∉ l.map key) : l.find? (fun y => key y == r) = none := by
  rw [List.find?_eq_none]
  intro y hy
  simp only [beq_iff_eq]
  intro h
  exact hr (h ▸ List.mem_map_of_mem key hy)

theorem mem_unionIndex (a b : List String) (r : String) :
    r ∈ unionIndex a b ↔ r ∈ a ∨ r ∈ b := by
  unfold unionIndex
  by_cases hb : b.isEmpty
  · have hbe : b = [] := List.isEmpty_iff.mp hb
    subst hbe
    simp [hb]
  · rw [if_neg hb]
    by_cases ha : a.isEmpty
    · have hae : a = [] := List.isEmpty_iff.mp ha
      subst hae
      simp [ha]
    · rw [if_neg ha, List.mem_insertionSort]
      simp only [List.mem_append, List.mem_filter, Bool.not_eq_true']
      constructor
      · rintro (h | ⟨h, _⟩)
        · exact Or.inl h
        · exact Or.inr h
      · rintro (h | h)
        · exact Or.inl h
        · by_cases hra : r ∈ a
          · exact Or.inl hra
          · refine Or.inr ⟨h, ?_⟩
            rw [← Bool.not_eq_true]
            simpa [List.elem_iff] using hra

theorem nodup_unionIndex {a b : List String} (ha : a.Nodup) (hb : b.Nodup) :
    (unionIndex a b).Nodup := by
  unfold unionIndex
  by_cases hbe : b.isEmpty
  · rw [if_pos hbe]; exact ha
  · rw [if_neg hbe]
    by_cases hae : a.isEmpty
    · rw [if_pos hae]; exact hb
    · rw [if_neg hae, (List.perm_insertionSort _ _).nodup_iff]
      refine List.Nodup.append ha (hb.filter _) ?_
      intro x hxa hxb
      rcases List.mem_filter.mp hxb with ⟨_, hx⟩
      simp only [Bool.not_eq_true'] at hx
      rw [← Bool.not_eq_true, List.elem_iff] at hx
      · exact hx hxa

theorem mergedRow_reference (L : Ledger) (B : List ItemRow) (ts : String) (r : String) :
    (mergedRow L B ts r).reference = r := by
  unfold mergedRow
  cases h : B.find? (fun o => o.reference == r) with
  | none => simp [h]
  | some o => simp [h]

theorem mergeLedger_priceCols {L : Ledger} {ts : String} (B : List ItemRow)
    (hts : ts ∉ L.priceCols) :
    (mergeLedger L B ts).priceCols = L.priceCols ++ [ts] := by
  simp [mergeLedger, hts]

theorem mergeLedger_priceCols_of_mem {L : Ledger} {ts : String} (B : List ItemRow)
    (hts : ts ∈ L.priceCols) :
    (mergeLedger L B ts).priceCols = L.priceCols := by
  simp [mergeLedger, hts]

theorem mem_mergeLedger_rows {L : Ledger} {B : List ItemRow} {ts : String} {row : LedgerRow} :
    row ∈ (mergeLedger L B ts).rows ↔
      ∃ r ∈ unionIndex (L.rows.map (fun x => x.reference)) (B.map (fun o => o.reference)),
        row = mergedRow L B ts r := by
  show row ∈ List.insertionSort _ _ ↔ _
  rw [List.mem_insertionSort, List.mem_map]
  constructor
  · rintro ⟨r, hr, rfl⟩
    exact ⟨r, hr, rfl⟩
  · rintro ⟨r, hr, rfl⟩
    exact ⟨r, hr, rfl⟩

theorem mergeLedger_refs_nodup {L : Ledger} {B : List ItemRow} {ts : String}
    (hLnd : (L.rows.map (fun x => x.reference)).Nodup)
    (hBnd : (B.map (fun o => o.reference)).Nodup) :
    ((mergeLedger L B ts).rows.map (fun x => x.reference)).Nodup := by
  have hperm : List.Perm ((mergeLedger L B ts).rows.map (fun x => x.reference))
      (((unionIndex (L.rows.map (fun x => x.reference)) (B.map (fun o => o.reference))).map
        (mergedRow L B ts)).map (fun x => x.reference)) :=
    ((List.perm_insertionSort _ _).map _)
  rw [hperm.nodup_iff, List.map_map]
  have : ((fun x => x.reference) ∘ mergedRow L B ts) = fun r => r := by
    funext r
    exact mergedRow_reference L B ts r
  rw [this, List.map_id']
  exact nodup_unionIndex hLnd hBnd

theorem mergeLedger_findRow_of_mem {L : Ledger} {B : List ItemRow} {ts : String} {r : String}
    (hLnd : (L.rows.map (fun x => x.reference)).Nodup)
    (hBnd : (B.map (fun o => o.reference)).Nodup)
    (hr : r ∈ L.rows.map (fun x => x.reference) ∨ r ∈ B.map (fun o => o.reference)) :
    (mergeLedger L B ts).findRow r = some (mergedRow L B ts r) := by
  unfold Ledger.findRow
  exact find?_key_eq_some (fun x => x.reference)
    (mergeLedger_refs_nodup hLnd hBnd)
    (mem_mergeLedger_rows.mpr ⟨r, (mem_unionIndex _ _ r).mpr hr, rfl⟩)
    (mergedRow_reference L B ts r)

theorem mergeLedger_findRow_of_not_mem {L : Ledger} {B : List ItemRow} {ts : String} {r : String}
    (hr : r ∉ L.rows.map (fun x => x.reference)) (hr2 : r ∉ B.map (fun o => o.reference)) :
    (mergeLedger L B ts).findRow r = none := by
  unfold Ledger.findRow
  rw [List.find?_eq_none]
  intro row hrow
  rcases mem_mergeLedger_rows.mp hrow with ⟨r', hr', rfl⟩
  rcases (mem_unionIndex _ _ r').mp hr' with h | h
  · simp only [beq_iff_eq, mergedRow_reference]
    intro he
    exact hr (he ▸ h)
  · simp only [beq_iff_eq, mergedRow_reference]
    intro he
    exact hr2 (he ▸ h)

/-- The `reindex` base row of a reference has cells aligned with the prior
columns. -/
theorem baseRow_length {L : Ledger} (r : String)
    (hlen : ∀ row ∈ L.rows, row.prices.length = L.priceCols.length) :
    ((L.findRow r).getD (blankRow L.priceCols r)).prices.length = L.priceCols.length := by
  cases h : L.findRow r with
  | none => simp [blankRow]
  | some row =>
    simp only [Option.getD_some]
    exact hlen row (List.mem_of_find?_eq_some h)

/-- Rows of a merged ledger are aligned with its columns. -/
theorem mergeLedger_aligned {L : Ledger} {B : List ItemRow} {ts : String}
    (hts : ts ∉ L.priceCols)
    (hlen : ∀ row ∈ L.rows, row.prices.length = L.priceCols.length) :
    ∀ row ∈ (mergeLedger L B ts).rows,
      row.prices.length = (mergeLedger L B ts).priceCols.length := by
  intro row hrow
  rcases mem_mergeLedger_rows.mp hrow with ⟨r, _, rfl⟩
  rw [mergeLedger_priceCols B hts]
  have hbase := baseRow_length (L := L) r hlen
  unfold mergedRow
  cases h : B.find? (fun o => o.reference == r) with
  | none =>
    simp only [h]
    rw [setCol_not_mem _ _ _ _ hts hbase]
    simp [hbase]
  | some o =>
    simp only [h]
    rw [setCol_not_mem _ _ _ _ hts hbase]
    simp [hbase]

theorem mergedRow_of_find_some {L : Ledger} {B : List ItemRow} {ts r : String} {o : ItemRow}
    (h : B.find? (fun x => x.reference == r) = some o) :
    mergedRow L B ts r =
      ⟨r, some o.nom, some o.url_produit,
        setCol L.priceCols ((L.findRow r).getD (blankRow L.priceCols r)).prices o.prix_eur ts⟩ := by
  unfold mergedRow
  simp [h]

theorem mergedRow_of_find_none {L : Ledger} {B : List ItemRow} {ts r : String}
    (h : B.find? (fun x => x.reference == r) = none) :
    mergedRow L B ts r =
      ⟨r, ((L.findRow r).getD (blankRow L.priceCols r)).nom,
        ((L.findRow r).getD (blankRow L.priceCols r)).url_produit,
        setCol L.priceCols ((L.findRow r).getD (blankRow L.priceCols r)).prices none ts⟩ := by
  unfold mergedRow
  simp [h]

theorem mergedRow_prices_set {L : Ledger} (B : List ItemRow) (ts r : String) :
    ∃ v : Option ℚ, (mergedRow L B ts r).prices =
      setCol L.priceCols ((L.findRow r).getD (blankRow L.priceCols r)).prices v ts := by
  cases h : B.find? (fun x => x.reference == r) with
  | none => exact ⟨none, by rw [mergedRow_of_find_none h]⟩
  | some o => exact ⟨o.prix_eur, by rw [mergedRow_of_find_some h]⟩

theorem mergeLedger_mem_refs {L : Ledger} {B : List ItemRow} {ts r : String} :
    r ∈ (mergeLedger L B ts).rows.map (fun x => x.reference) ↔
      (r ∈ L.rows.map (fun x => x.reference) ∨ r ∈ B.map (fun o => o.reference)) := by
  constructor
  · intro h
    rcases List.mem_map.mp h with ⟨row, hrow, rfl⟩
    rcases mem_mergeLedger_rows.mp hrow with ⟨r', hr', rfl⟩
    rw [mergedRow_reference]
    exact (mem_unionIndex _ _ r').mp hr'
  · intro h
    exact List.mem_map.mpr ⟨mergedRow L B ts r,
      mem_mergeLedger_rows.mpr ⟨r, (mem_unionIndex _ _ r).mpr h, rfl⟩,
      mergedRow_reference L B ts r⟩

/-- Re-merging the same batch over an already merged ledger reproduces each
merged row unchanged: the run column is overwritten in place with the same
values. -/
theorem mergeLedger_mergedRow_stable {L : Ledger} {B : List ItemRow} {ts r : String}
    (hts : ts ∉ L.priceCols)
    (hLnd : (L.rows.map (fun row => row.reference)).Nodup)
    (hBnd : (B.map (fun o => o.reference)).Nodup)
    (hlen : ∀ row ∈ L.rows, row.prices.length = L.priceCols.length)
    (hr : r ∈ L.rows.map (fun x => x.reference) ∨ r ∈ B.map (fun o => o.reference)) :
    mergedRow (mergeLedger L B ts) B ts r = mergedRow L B ts r := by
  have hPc : (mergeLedger L B ts).priceCols = L.priceCols ++ [ts] := mergeLedger_priceCols B hts
  have hfr1 : (mergeLedger L B ts).findRow r = some (mergedRow L B ts r) :=
    mergeLedger_findRow_of_mem hLnd hBnd hr
  have hq : ((L.findRow r).getD (blankRow L.priceCols r)).prices.length
      = L.priceCols.length := baseRow_length r hlen
  cases hbf : B.find? (fun x => x.reference == r) with
  | some o =>
    have hp1 : (mergedRow L B ts r).prices =
        ((L.findRow r).getD (blankRow L.priceCols r)).prices ++ [o.prix_eur] := by
      rw [mergedRow_of_find_some (L := L) hbf]
      exact setCol_not_mem _ _ _ _ hts hq
    rw [mergedRow_of_find_some (L := mergeLedger L B ts) hbf,
        mergedRow_of_find_some (L := L) hbf]
    refine congrArg (LedgerRow.mk r (some o.nom) (some o.url_produit)) ?_
    rw [hfr1, Option.getD_some, hp1, hPc,
      setCol_append_self _ _ _ _ _ hts hq, setCol_not_mem _ _ _ _ hts hq]
  | none =>
    have hp1 : (mergedRow L B ts r).prices =
        ((L.findRow r).getD (blankRow L.priceCols r)).prices ++ [none] := by
      rw [mergedRow_of_find_none (L := L) hbf]
      exact setCol_not_mem _ _ _ _ hts hq
    have hn1 : (mergedRow L B ts r).nom =
        ((L.findRow r).getD (blankRow L.priceCols r)).nom := by
      rw [mergedRow_of_find_none (L := L) hbf]
    have hu1 : (mergedRow L B ts r).url_produit =
        ((L.findRow r).getD (blankRow L.priceCols r)).url_produit := by
      rw [mergedRow_of_find_none (L := L) hbf]
    rw [mergedRow_of_find_none (L := mergeLedger L B ts) hbf,
        mergedRow_of_find_none (L := L) hbf]
    rw [hfr1, Option.getD_some, hn1, hu1, hp1, hPc,
      setCol_append_self _ _ _ _ _ hts hq, setCol_not_mem _ _ _ _ hts hq]

/-! ## The `sort_values` order is a total preorder -/

theorem optNomLE_total (x y : Option String) : optNomLE x y = true ∨ optNomLE y x = true := by
  cases x with
  | none =>
    cases y with
    | none => exact Or.inl rfl
    | some b => exact Or.inr rfl
  | some a =>
    cases y with
    | none => exact Or.inl rfl
    | some b =>
      rcases le_total a b with h | h
      · exact Or.inl (by simpa [optNomLE] using h)
      · exact Or.inr (by simpa [optNomLE] using h)

theorem optNomLE_trans {x y z : Option String}
    (h1 : optNomLE x y = true) (h2 : optNomLE y z = true) : optNomLE x z = true := by
  cases x with
  | none =>
    cases y with
    | none => exact h2
    | some b =>
      simp [optNomLE] at h1
  | some a =>
    cases z with
    | none => rfl
    | some c =>
      cases y with
      | none => simp [optNomLE] at h2
      | some b =>
        simp only [optNomLE, decide_eq_true_eq] at h1 h2 ⊢
        exact le_trans h1 h2

theorem optPriceLT_trans {x y z : Option ℚ}
    (h1 : optPriceLT x y = true) (h2 : optPriceLT y z = true) : optPriceLT x z = true := by
  cases x with
  | none => simp [optPriceLT] at h1
  | some a =>
    cases y with
    | none => simp [optPriceLT] at h2
    | some b =>
      cases z with
      | none => rfl
      | some c =>
        simp only [optPriceLT, decide_eq_true_eq] at h1 h2 ⊢
        exact lt_trans h1 h2

theorem optPriceLT_of_ne {x y : Option ℚ} (h : x ≠ y) :
    optPriceLT x y = true ∨ optPriceLT y x = true := by
  cases x with
  | none =>
    cases y with
    | none => exact absurd rfl h
    | some b => exact Or.inr rfl
  | some a =>
    cases y with
    | none => exact Or.inl rfl
    | some b =>
      have hab : a ≠ b := fun he => h (he ▸ rfl)
      rcases lt_or_gt_of_ne hab with hl | hl
      · exact Or.inl (by simpa [optPriceLT] using hl)
      · exact Or.inr (by simpa [optPriceLT] using hl)

theorem rowLE_total (cols : List String) (ts : String) (a b : LedgerRow) :
    rowLE cols ts a b ∨ rowLE cols ts b a := by
  unfold rowLE
  rcases eq_or_ne (colVal cols a.prices ts) (colVal cols b.prices ts) with h | h
  · rcases optNomLE_total a.nom b.nom with hn | hn
    · exact Or.inl (Or.inr ⟨h, hn⟩)
    · exact Or.inr (Or.inr ⟨h.symm, hn⟩)
  · rcases optPriceLT_of_ne h with hl | hl
    · exact Or.inl (Or.inl hl)
    · exact Or.inr (Or.inl hl)

theorem rowLE_trans (cols : List String) (ts : String) (a b c : LedgerRow)
    (h1 : rowLE cols ts a b) (h2 : rowLE cols ts b c) : rowLE cols ts a c := by
  unfold rowLE at h1 h2 ⊢
  rcases h1 with h1 | ⟨h1e, h1n⟩
  · rcases h2 with h2 | ⟨h2e, _⟩
    · exact Or.inl (optPriceLT_trans h1 h2)
    · exact Or.inl (h2e ▸ h1)
  · rcases h2 with h2 | ⟨h2e, h2n⟩
    · exact Or.inl (h1e ▸ h2)
    · exact Or.inr ⟨h1e.trans h2e, optNomLE_trans h1n h2n⟩

end Scrape

open Scrape

/-! ## The claims -/

/-- **C2** (confirmed).  Promotional-pair selection: whenever two or more
candidates survive the plausibility filter, the resolver returns the second
surviving candidate in document order, and when exactly one survives it
returns that one.  In particular (see the witness) the text
"1 329€00 659€00" resolves to 659.00 € (65900 cents). -/
theorem claim_C2_promo_pair :
    (∀ (t : String) (c0 c1 : Nat) (rest : List Nat),
        survivors t = c0 :: c1 :: rest →
        extract_main_price_from_text t = some c1) ∧
    (∀ (t : String) (c0 : Nat),
        survivors t = [c0] → extract_main_price_from_text t = some c0) := by
  constructor
  · intro t c0 c1 rest h
    unfold survivors at h
    have hraw : rawAmounts t ≠ [] := by
      intro he
      rw [he] at h
      simp at h
    rw [extract_eq_select t hraw]
    exact selectPrice_two h
  · intro t c0 h
    unfold survivors at h
    have hraw : rawAmounts t ≠ [] := by
      intro he
      rw [he] at h
      simp at h
    rw [extract_eq_select t hraw]
    exact selectPrice_one h

/-- Witness for C2 at the spec's promotional example: the two in-band
survivors are 1329.00 € and 659.00 €, and the resolver returns the second,
659.00 € (65900 cents). -/
theorem claim_C2_promo_pair_witness :
    survivors "1 329€00 659€00" = [132900, 65900] ∧
    extract_main_price_from_text "1 329€00 659€00" = some 65900 :=
  ⟨by decide, claim_C2_promo_pair.1 "1 329€00 659€00" 132900 65900 [] (by decide)⟩

/-- **C3** (corrected), counterexample.  The claim demands that for a text
containing only the installment pattern "9 x 46€39" the resolver returns
unknown or excludes 46.39; the code returns exactly 46.39 € (4639 cents),
the per-installment amount, through the raw-candidate fallback. -/
theorem claim_C3_installment_cex :
    extract_main_price_from_text "9 x 46€39" = some 4639 ∧
    4639 = 46 * 100 + 39 := by decide

/-- **C3** (corrected), amended claim.  The code performs no
installment-context exclusion at all: whenever the scan finds at least one
amount the resolver never answers unknown; for "9 x 46€39" the single
scanned amount 46.39 € falls below the plausibility band, so the filter
leaves no candidate and the fallback returns 46.39 € itself. -/
theorem claim_C3_no_installment_exclusion :
    (∀ (t : String) (m0 : Nat) (rest : List Nat),
        rawAmounts t = m0 :: rest → extract_main_price_from_text t ≠ none) ∧
    rawAmounts "9 x 46€39" = [4639] ∧
    survivors "9 x 46€39" = [] ∧
    extract_main_price_from_text "9 x 46€39" = some 4639 := by
  refine ⟨?_, by decide, by decide, by decide⟩
  intro t m0 rest h
  rw [extract_eq_select t (by rw [h]; exact List.cons_ne_nil m0 rest), h]
  exact selectPrice_isSome (List.cons_ne_nil m0 rest)

/-- Witness for the amended C3 at the installment-only text. -/
theorem claim_C3_no_installment_exclusion_witness :
    extract_main_price_from_text "9 x 46€39" ≠ none :=
  claim_C3_no_installment_exclusion.1 "9 x 46€39" 4639 [] (by decide)

/-- **C4** (corrected), counterexample.  The claim demands that a present
price always lies within the plausibility band and that "3€07" resolves to
unknown; the code returns 3.07 € (307 cents), which is below the band. -/
theorem claim_C4_band_cex :
    extract_main_price_from_text "3€07" = some 307 ∧
    inBand 307 = false := by decide

/-- **C4** (corrected), amended claim.  The band invariant holds exactly
when at least one scanned amount survives the band filter: then any
returned price is within the band.  (When no candidate survives, the
fallback returns the first raw amount, which may be out of band, as the
counterexample shows.) -/
theorem claim_C4_band_when_candidates :
    ∀ (t : String) (v : Nat), survivors t ≠ [] →
      extract_main_price_from_text t = some v → inBand v = true := by
  intro t v hs h
  have hraw : rawAmounts t ≠ [] := by
    intro he
    apply hs
    unfold survivors
    rw [he]
    rfl
  rw [extract_eq_select t hraw] at h
  exact selectPrice_band (by unfold survivors at hs; exact hs) h

/-- Witness for the amended C4: "659€00" has an in-band survivor and the
returned 659.00 € lies in the band. -/
theorem claim_C4_band_when_candidates_witness : inBand 65900 = true :=
  claim_C4_band_when_candidates "659€00" 65900 (by decide) (by decide)

/-- **C5** (corrected), counterexample.  For "20€99 30€99" both raw
amounts (20.99 € and 30.99 €) are below the band, so the threshold filter
removes everything; the claim says the resolver then returns the single
largest raw candidate (30.99 €), but the code returns `matches[0]`, the
first raw candidate 20.99 € (2099 cents). -/
theorem claim_C5_fallback_cex :
    survivors "20€99 30€99" = [] ∧
    rawAmounts "20€99 30€99" = [2099, 3099] ∧
    extract_main_price_from_text "20€99 30€99" ≠ some 3099 ∧
    extract_main_price_from_text "20€99 30€99" = some 2099 := by decide

/-- **C5** (corrected), amended claim.  When the scan finds at least one
amount but the band filter removes every candidate, the resolver returns
the FIRST raw candidate in document order (not the largest). -/
theorem claim_C5_fallback_first_raw :
    ∀ (t : String) (m0 : Nat) (rest : List Nat),
      rawAmounts t = m0 :: rest → survivors t = [] →
      extract_main_price_from_text t = some m0 := by
  intro t m0 rest hr hs
  rw [extract_eq_select t (by rw [hr]; exact List.cons_ne_nil m0 rest), hr]
  apply selectPrice_fallback
  unfold survivors at hs
  rw [hr] at hs
  exact hs

/-- Witness for the amended C5 at the two-low-amounts text. -/
theorem claim_C5_fallback_first_raw_witness :
    extract_main_price_from_text "20€99 30€99" = some 2099 :=
  claim_C5_fallback_first_raw "20€99 30€99" 2099 [3099] (by decide) (by decide)

/-- **C6** (confirmed).  Empty-run circuit breaker: a run with at least one
observation resets the persisted counter to 0 and raises nothing; a run
with zero observations increments the counter (persisted before any raise)
and raises exactly when the incremented value reaches
`MAX_EMPTY_RUNS = 3`; starting from a fresh counter, three consecutive
empty runs trip the breaker on the third and not before. -/
theorem claim_C6_circuit_breaker :
    (∀ (c : Nat) (rows : List ItemRow) (file : Option Ledger) (ts : String),
        rows ≠ [] →
        (run_once c rows file ts).empty_runs = 0 ∧
        (run_once c rows file ts).raised = false) ∧
    (∀ (c : Nat) (file : Option Ledger) (ts : String),
        (run_once c [] file ts).empty_runs = c + 1 ∧
        ((run_once c [] file ts).raised = true ↔ MAX_EMPTY_RUNS ≤ c + 1)) ∧
    (∀ (file : Option Ledger) (ts : String),
        (run_once 0 [] file ts).raised = false ∧
        (run_once 1 [] file ts).raised = false ∧
        (run_once 2 [] file ts).raised = true) := by
  refine ⟨?_, ?_, ?_⟩
  · intro c rows file ts hr
    have hne : rows.isEmpty = false := by
      cases rows with
      | nil => exact absurd rfl hr
      | cons a l => rfl
    constructor <;> simp [run_once, hne]
  · intro c file ts
    refine ⟨by simp [run_once], ?_⟩
    simp [run_once, MAX_EMPTY_RUNS]
  · intro file ts
    refine ⟨?_, ?_, ?_⟩ <;> simp [run_once, MAX_EMPTY_RUNS]

/-- Witness for C6: a non-empty batch at counter 2 resets to 0 without
raising. -/
theorem claim_C6_circuit_breaker_witness :
    (run_once 2 [⟨"PB1", "iPhone", "u", some 100⟩] none "T1").empty_runs = 0 ∧
    (run_once 2 [⟨"PB1", "iPhone", "u", some 100⟩] none "T1").raised = false :=
  claim_C6_circuit_breaker.1 2 [⟨"PB1", "iPhone", "u", some 100⟩] none "T1"
    (List.cons_ne_nil _ _)

/-- **C7** (confirmed).  Fallback budget: the number of fallback attempts
is `min B #unresolved` (hence at most `B`), the remaining budget is `B`
minus the attempts (one unit per attempt, success or failure), every item
keeps its slot in the output, and an item with an unresolved listing price
gets the detail-page outcome exactly when fewer than `B` unresolved items
precede it, and otherwise keeps an unknown price with no fallback
attempted. -/
theorem claim_C7_fallback_budget :
    ∀ (items : List ListingItem) (B : Nat),
      (scrape_items items B).2.2 =
        min B (items.countP (fun it => it.listing_price.isNone)) ∧
      (scrape_items items B).2.1 = B - (scrape_items items B).2.2 ∧
      (scrape_items items B).1.length = items.length ∧
      (∀ (i : Nat) (h : i < items.length), items[i].listing_price = none →
        ((scrape_items items B).1.map (fun r => r.prix_eur))[i]? =
          some (if (items.take i).countP (fun it => it.listing_price.isNone) < B
                then items[i].detail_price else none)) :=
  fun items B =>
    ⟨scrape_items_attempts items B, scrape_items_budget items B,
     scrape_items_length items B, fun i h => scrape_items_price items B i h⟩

/-- Witness for C7 at the spec's example: with budget 2 and five items all
missing a listing price, exactly two fallback attempts happen and the
fifth item keeps an unknown price. -/
theorem claim_C7_fallback_budget_witness :
    (scrape_items demoItems 2).2.2 = 2 ∧
    ((scrape_items demoItems 2).1.map (fun r => r.prix_eur))[4]? = some none :=
  ⟨((claim_C7_fallback_budget demoItems 2).1).trans (by decide),
   ((claim_C7_fallback_budget demoItems 2).2.2.2 4 (by decide) rfl).trans (by decide)⟩

/-- **C10** (confirmed).  An empty observation batch is a no-op on the
ledger: with an existing file the history is returned unchanged (no
timestamp column appended, nothing rewritten); with no file only the
minimal empty ledger is created. -/
theorem claim_C10_empty_batch_noop :
    (∀ (L : Ledger) (ts : String), update_excel_history (some L) [] ts = some L) ∧
    (∀ ts : String, update_excel_history none [] ts = some emptyLedger) := by
  constructor
  · intro L ts
    simp [update_excel_history]
  · intro ts
    simp [update_excel_history]

/-- **C1** (confirmed).  Ledger merge is append-only and monotone: for a
persisted ledger (well-formed: distinct row keys, cells aligned with the
columns) and a non-empty batch whose capture timestamp is a fresh column
name, the merged ledger's row-key set is exactly the union of the prior
keys and the batch's ids, the column list is the prior list with the run's
timestamp appended (prior columns retained, unreordered), every prior
price cell keeps its value, and a row whose id is absent from the batch
has a missing value in the new run's column. -/
theorem claim_C1_merge_append_only
    (L : Ledger) (B : List ItemRow) (ts : String)
    (hB : B ≠ []) (hts : ts ∉ L.priceCols)
    (hLnd : (L.rows.map (fun row => row.reference)).Nodup)
    (hlen : ∀ row ∈ L.rows, row.prices.length = L.priceCols.length) :
    update_excel_history (some L) B ts = some (mergeLedger L B ts) ∧
    (mergeLedger L B ts).priceCols = L.priceCols ++ [ts] ∧
    (∀ r : String,
        (∃ row ∈ (mergeLedger L B ts).rows, row.reference = r) ↔
          ((∃ row ∈ L.rows, row.reference = r) ∨ ∃ o ∈ B, o.reference = r)) ∧
    (∀ row ∈ (mergeLedger L B ts).rows, ∀ row0 ∈ L.rows,
        row0.reference = row.reference → ∀ c ∈ L.priceCols,
        colVal (mergeLedger L B ts).priceCols row.prices c =
          colVal L.priceCols row0.prices c) ∧
    (∀ row ∈ (mergeLedger L B ts).rows,
        row.reference ∉ B.map (fun o => o.reference) →
        colVal (mergeLedger L B ts).priceCols row.prices ts = none) := by
  refine ⟨?_, mergeLedger_priceCols B hts, ?_, ?_, ?_⟩
  · have hne : B.isEmpty = false := by
      cases B with
      | nil => exact absurd rfl hB
      | cons a l => rfl
    simp [update_excel_history, hne]
  · intro r
    constructor
    · rintro ⟨row, hrow, rfl⟩
      rcases mem_mergeLedger_rows.mp hrow with ⟨r', hr', rfl⟩
      rw [mergedRow_reference]
      rcases (mem_unionIndex _ _ r').mp hr' with h | h
      · rcases List.mem_map.mp h with ⟨row0, hrow0, h0⟩
        exact Or.inl ⟨row0, hrow0, h0⟩
      · rcases List.mem_map.mp h with ⟨o, ho, h0⟩
        exact Or.inr ⟨o, ho, h0⟩
    · rintro (⟨row0, hrow0, rfl⟩ | ⟨o, ho, rfl⟩)
      · exact ⟨mergedRow L B ts row0.reference,
          mem_mergeLedger_rows.mpr ⟨_,
            (mem_unionIndex _ _ _).mpr (Or.inl (List.mem_map_of_mem _ hrow0)), rfl⟩,
          mergedRow_reference L B ts _⟩
      · exact ⟨mergedRow L B ts o.reference,
          mem_mergeLedger_rows.mpr ⟨_,
            (mem_unionIndex _ _ _).mpr (Or.inr (List.mem_map_of_mem _ ho)), rfl⟩,
          mergedRow_reference L B ts _⟩
  · intro row hrow row0 hrow0 href c hc
    rcases mem_mergeLedger_rows.mp hrow with ⟨r, _, rfl⟩
    rw [mergedRow_reference] at href
    have hfind : L.findRow r = some row0 := by
      unfold Ledger.findRow
      exact find?_key_eq_some (fun x : LedgerRow => x.reference) hLnd hrow0 href
    obtain ⟨v, hp⟩ := mergedRow_prices_set (L := L) B ts r
    rw [mergeLedger_priceCols B hts, hp, hfind, Option.getD_some,
      setCol_not_mem _ _ _ _ hts (hlen row0 hrow0)]
    exact colVal_append_left _ _ _ _ _ hc (hlen row0 hrow0)
  · intro row hrow hnb
    rcases mem_mergeLedger_rows.mp hrow with ⟨r, _, rfl⟩
    rw [mergedRow_reference] at hnb
    have hbf : B.find? (fun x => x.reference == r) = none :=
      find?_key_eq_none (fun o : ItemRow => o.reference) hnb
    rw [mergeLedger_priceCols B hts, mergedRow_of_find_none hbf]
    rw [setCol_not_mem _ _ _ _ hts (baseRow_length r hlen)]
    exact colVal_append_new _ _ _ _ hts (baseRow_length r hlen)

/-- Witness for C1 at the spec's append-only example: merging ledger
`{PB1: T1=100}` with batch `[{id: PB2, price: 200}]` at timestamp T2
keeps column T1 and appends column T2. -/
theorem claim_C1_merge_append_only_witness :
    (mergeLedger ⟨["T1"], [⟨"PB1", some "X", some "u1", [some 100]⟩]⟩
        [⟨"PB2", "Y", "u2", some 200⟩] "T2").priceCols = ["T1", "T2"] :=
  ((claim_C1_merge_append_only
      ⟨["T1"], [⟨"PB1", some "X", some "u1", [some 100]⟩]⟩
      [⟨"PB2", "Y", "u2", some 200⟩] "T2"
      (by decide) (by decide) (by decide) (by decide)).2.1).trans rfl

/-- **C8** (confirmed).  Ledger merge is idempotent on the capture
timestamp: merging the same non-empty batch a second time with the same
timestamp leaves the column list unchanged — the history ends up with
exactly one price column named by that timestamp — and every row lookup
yields the same row as after the first merge (the second merge overwrites
the run column in place with the same values and changes nothing else). -/
theorem claim_C8_merge_idempotent
    (L : Ledger) (B : List ItemRow) (ts : String)
    (hB : B ≠ []) (hts : ts ∉ L.priceCols)
    (hLnd : (L.rows.map (fun row => row.reference)).Nodup)
    (hBnd : (B.map (fun o => o.reference)).Nodup)
    (hlen : ∀ row ∈ L.rows, row.prices.length = L.priceCols.length) :
    (mergeLedger (mergeLedger L B ts) B ts).priceCols = (mergeLedger L B ts).priceCols ∧
    (mergeLedger L B ts).priceCols.count ts = 1 ∧
    (∀ r : String,
        (mergeLedger (mergeLedger L B ts) B ts).findRow r =
          (mergeLedger L B ts).findRow r) := by
  have hPc : (mergeLedger L B ts).priceCols = L.priceCols ++ [ts] := mergeLedger_priceCols B hts
  have htsmem : ts ∈ (mergeLedger L B ts).priceCols := by
    rw [hPc]
    exact List.mem_append_right _ (List.mem_singleton.mpr rfl)
  have hL1nd : ((mergeLedger L B ts).rows.map (fun x => x.reference)).Nodup :=
    mergeLedger_refs_nodup hLnd hBnd
  refine ⟨mergeLedger_priceCols_of_mem B htsmem, ?_, ?_⟩
  · rw [hPc, List.count_append, List.count_eq_zero.mpr hts]
    simp
  · intro r
    by_cases hr : r ∈ L.rows.map (fun x => x.reference) ∨ r ∈ B.map (fun o => o.reference)
    · have hr' : r ∈ (mergeLedger L B ts).rows.map (fun x => x.reference) ∨
          r ∈ B.map (fun o => o.reference) :=
        Or.inl (mergeLedger_mem_refs.mpr hr)
      rw [mergeLedger_findRow_of_mem hL1nd hBnd hr',
        mergeLedger_findRow_of_mem hLnd hBnd hr,
        mergeLedger_mergedRow_stable hts hLnd hBnd hlen hr]
    · rcases not_or.mp hr with ⟨hnL, hnB⟩
      have h2 : r ∉ (mergeLedger L B ts).rows.map (fun x => x.reference) := by
        intro hm
        exact hr (mergeLedger_mem_refs.mp hm)
      rw [mergeLedger_findRow_of_not_mem h2 hnB,
        mergeLedger_findRow_of_not_mem hnL hnB]

/-- Witness for C8 at the spec's idempotence example: merging batch
`[{id: PB1, price: 300}]` into `{PB1: T1=100}` at timestamp T2 yields
exactly one column named T2, and re-merging does not change the PB1 row. -/
theorem claim_C8_merge_idempotent_witness :
    (mergeLedger ⟨["T1"], [⟨"PB1", some "X", some "u1", [some 100]⟩]⟩
        [⟨"PB1", "X", "u1", some 300⟩] "T2").priceCols.count "T2" = 1 ∧
    (mergeLedger (mergeLedger ⟨["T1"], [⟨"PB1", some "X", some "u1", [some 100]⟩]⟩
          [⟨"PB1", "X", "u1", some 300⟩] "T2")
        [⟨"PB1", "X", "u1", some 300⟩] "T2").findRow "PB1" =
      (mergeLedger ⟨["T1"], [⟨"PB1", some "X", some "u1", [some 100]⟩]⟩
        [⟨"PB1", "X", "u1", some 300⟩] "T2").findRow "PB1" :=
  ⟨(claim_C8_merge_idempotent ⟨["T1"], [⟨"PB1", some "X", some "u1", [some 100]⟩]⟩
      [⟨"PB1", "X", "u1", some 300⟩] "T2"
      (by decide) (by decide) (by decide) (by decide) (by decide)).2.1,
   (claim_C8_merge_idempotent ⟨["T1"], [⟨"PB1", some "X", some "u1", [some 100]⟩]⟩
      [⟨"PB1", "X", "u1", some 300⟩] "T2"
      (by decide) (by decide) (by decide) (by decide) (by decide)).2.2 "PB1"⟩

/-- **C9** (confirmed).  After every merge of a non-empty batch the rows of
the written ledger are sorted by the run's (newest) price column in
ascending order, missing prices last, ties broken by display name
ascending: consecutive rows are always related by `rowLE`, the
lexicographic (run-column price, display name) order with missing values
greatest. -/
theorem claim_C9_merge_sorted (L : Ledger) (B : List ItemRow) (ts : String)
    (hB : B ≠ []) :
    (mergeLedger L B ts).rows.Pairwise
      (rowLE (mergeLedger L B ts).priceCols ts) := by
  haveI : IsTotal LedgerRow (rowLE (mergeLedger L B ts).priceCols ts) :=
    ⟨rowLE_total (mergeLedger L B ts).priceCols ts⟩
  haveI : IsTrans LedgerRow (rowLE (mergeLedger L B ts).priceCols ts) :=
    ⟨rowLE_trans (mergeLedger L B ts).priceCols ts⟩
  exact List.sorted_insertionSort _ _

/-- Witness for C9: the merged example ledger's rows are sorted by the T2
column, then by name. -/
theorem claim_C9_merge_sorted_witness :
    (mergeLedger ⟨["T1"], [⟨"PB1", some "X", some "u1", [some 100]⟩]⟩
        [⟨"PB2", "B2", "u2", some 200⟩, ⟨"PB3", "B3", "u3", some 150⟩] "T2").rows.Pairwise
      (rowLE (mergeLedger ⟨["T1"], [⟨"PB1", some "X", some "u1", [some 100]⟩]⟩
          [⟨"PB2", "B2", "u2", some 200⟩, ⟨"PB3", "B3", "u3", some 150⟩] "T2").priceCols
        "T2") :=
  claim_C9_merge_sorted _ _ _ (List.cons_ne_nil _ _)
